import Mathlib

/-!
Verification of the arena-backed rooted tree from `src/dir/src/tree.rs`
(the `dir` crate of the pathfinder repository).

The Rust code is shallowly embedded: `NodeId(i)` is the natural number
`i`, the arena `Vec<Option<Node<T>>>` is a `List (Option (Node T))`,
and operations that `assert!`/`panic!` in Rust are embedded as
`Option`-returning functions (`none` = the fatal fault; the assertions
fire before any mutation, so the pre-call state is the state at abort).
The recursive traversals are embedded with explicit fuel; the fuel
`t.nodes.length` is proved sufficient for every tree satisfying the
arena invariant.
-/

namespace Dir

/-- Embeds Rust `struct Node<T> { data, parent, children }`. -/
structure Node (T : Type) where
  data : T
  parent : Option Nat
  children : List Nat
deriving DecidableEq

/-- Embeds Rust `struct Tree<T> { nodes: Vec<Option<Node<T>>>, root: Option<NodeId> }`. -/
structure Tree (T : Type) where
  nodes : List (Option (Node T))
  root : Option Nat
deriving DecidableEq

variable {T : Type}

/-- Embeds `Tree::new`: empty arena, no root. -/
def Tree.new : Tree T := ⟨[], none⟩

/-- The content of slot `i`: `some n` when `i` is in range and the slot is
occupied, `none` otherwise.  `nodes[id.0].as_ref()` succeeds exactly when
this is `some`. -/
def Tree.slot (t : Tree T) (i : Nat) : Option (Node T) :=
  t.nodes[i]?.join

/-- Embeds the private `alloc`: the new handle is the current slot count and
the node is pushed at the end. -/
def Tree.alloc (t : Tree T) (n : Node T) : Nat × Tree T :=
  (t.nodes.length, { t with nodes := t.nodes ++ [some n] })

/-- Embeds `set_root`.  `none` models the `assert!(self.root.is_none())`
panic; the assert runs before any mutation. -/
def Tree.set_root (t : Tree T) (v : T) : Option (Nat × Tree T) :=
  match t.root with
  | some _ => none
  | none =>
    let p := t.alloc ⟨v, none, []⟩
    some (p.1, { p.2 with root := some p.1 })

/-- Embeds mutation through the private `node_mut(i)`: rewrite slot `i`
with `f`.  The `none` branch corresponds to the `expect("invalid NodeId")`
panic and is unreachable at every use site (validity is asserted first). -/
def Tree.writeNode (t : Tree T) (i : Nat) (f : Node T → Node T) : Tree T :=
  match t.slot i with
  | some n => { t with nodes := t.nodes.set i (some (f n)) }
  | none => t

/-- Embeds `add_child`: `assert_exists(parent)` (the `if` guard;
`none` = panic), then `alloc` the child node, then push the new handle onto
the parent's children list. -/
def Tree.add_child (t : Tree T) (p : Nat) (v : T) : Option (Nat × Tree T) :=
  if (t.slot p).isSome then
    let q := t.alloc ⟨v, some p, []⟩
    some (q.1, q.2.writeNode p (fun n => { n with children := n.children ++ [q.1] }))
  else none

/-- Embeds `get`: the payload of node `i` (`none` = the panic on an invalid
handle). -/
def Tree.get (t : Tree T) (i : Nat) : Option T :=
  (t.slot i).map Node.data

/-- Embeds `parent`: `some p` where `p` is `node(i).parent`
(`none` = the panic on an invalid handle). -/
def Tree.parent (t : Tree T) (i : Nat) : Option (Option Nat) :=
  (t.slot i).map Node.parent

/-- Embeds `children` (materialized as a list): the children of node `i`
in insertion order (`none` = the panic on an invalid handle). -/
def Tree.children (t : Tree T) (i : Nat) : Option (List Nat) :=
  (t.slot i).map Node.children

/-- Embeds writing value `v` through `get_mut(i)`
(`*tree.get_mut(i) = v`); `none` = the panic on an invalid handle. -/
def Tree.write (t : Tree T) (i : Nat) (v : T) : Option (Tree T) :=
  if (t.slot i).isSome then
    some (t.writeNode i (fun n => { n with data := v }))
  else none

/-- The children list of node `i`, totalized with `[]` on the (panicking,
unreachable under the arena invariant) invalid-handle branch.  Used by the
traversal embeddings, which in Rust read `self.node(id).children`. -/
def Tree.childrenD (t : Tree T) (i : Nat) : List Nat :=
  ((t.slot i).map Node.children).getD []

/-- The parent handle stored in node `i`, `none` when `i` is the root or
when the slot is invalid. -/
def Tree.parentD (t : Tree T) (i : Nat) : Option Nat :=
  (t.slot i).bind Node.parent

/-- Embeds the private `dfs_rec(id, out)` with explicit fuel:
push `id` onto the accumulator, then recurse into the children
left to right.  Fuel `0` (never reached from `dfs` on an invariant-
satisfying tree) returns the accumulator. -/
def Tree.dfsRec (t : Tree T) : Nat → Nat → List Nat → List Nat
  | 0, _, out => out
  | fuel+1, i, out =>
    (t.childrenD i).foldl (fun acc c => t.dfsRec fuel c acc) (out ++ [i])

/-- Embeds `dfs`: empty when there is no root, else `dfs_rec` from the
root with an empty accumulator. -/
def Tree.dfs (t : Tree T) : List Nat :=
  match t.root with
  | none => []
  | some r => t.dfsRec t.nodes.length r []

/-- Embeds the `while let Some(id) = queue.pop_front()` loop of `bfs`
with explicit fuel: dequeue the front handle, emit it, enqueue its
children at the back. -/
def Tree.bfsLoop (t : Tree T) : Nat → List Nat → List Nat → List Nat
  | 0, _, result => result
  | fuel+1, queue, result =>
    match queue with
    | [] => result
    | i :: rest => t.bfsLoop fuel (rest ++ t.childrenD i) (result ++ [i])

/-- Embeds `bfs`: empty when there is no root, else the queue loop seeded
with the root. -/
def Tree.bfs (t : Tree T) : List Nat :=
  match t.root with
  | none => []
  | some r => t.bfsLoop t.nodes.length [r] []

/-- Embeds the private `fmt_rec(id, pre, last, out, label)` with explicit
fuel.  Mirrors the Rust code exactly: the connector is empty iff the
incoming indentation string `pre` is empty, otherwise `"└── "` when
`last` and `"├── "` otherwise; the indentation passed to the children is
empty when `pre` is empty, otherwise `pre` extended by four spaces
(`last`) or by `"│   "`. -/
def Tree.fmtRec (t : Tree T) (label : T → String) : Nat → Nat → String → Bool → String
  | 0, _, _, _ => ""
  | fuel+1, i, pre, last =>
    match t.slot i with
    | none => ""
    | some n =>
      let connector := if pre = "" then "" else if last then "└── " else "├── "
      let ind := if pre = "" then "" else if last then pre ++ "    " else pre ++ "│   "
      pre ++ connector ++ label n.data ++ "\n" ++
        String.join ((n.children.enum).map
          (fun ic => t.fmtRec label fuel ic.2 ind (ic.1 + 1 == n.children.length)))

/-- Embeds `fmt_tree`: empty string when there is no root, else `fmt_rec`
from the root with empty indentation and `last = true`. -/
def Tree.fmt_tree (t : Tree T) (label : T → String) : String :=
  match t.root with
  | none => ""
  | some r => t.fmtRec label t.nodes.length r "" true

/-- The label line rendered for node `i` when no indentation or connector
is emitted: the label of the payload followed by a newline. -/
def Tree.lineD (t : Tree T) (label : T → String) (i : Nat) : String :=
  (match t.slot i with | some n => label n.data | none => "") ++ "\n"

/-- Modelled reference order for `dfs` (the mathematical pre-order
sequence): the node itself, then the pre-order sequences of its children
left to right.  Defined by well-founded recursion on `length - i`, guarded
by the arena invariant's child condition `i < c < length`; the guard never
fails on an invariant-satisfying tree. -/
def Tree.preorder (t : Tree T) (i : Nat) : List Nat :=
  i :: ((t.childrenD i).flatMap
    (fun c => if _h : i < c ∧ c < t.nodes.length then t.preorder c else []))
termination_by t.nodes.length - i
decreasing_by omega

/-- The number of nodes in the (guarded) subtree rooted at `i`. -/
def Tree.subtreeSize (t : Tree T) (i : Nat) : Nat :=
  (t.preorder i).length

/-- Total subtree size over a queue of handles. -/
def Tree.sizeSum (t : Tree T) (q : List Nat) : Nat :=
  (q.map t.subtreeSize).sum

theorem List.sum_map_ite_zero (l : List Nat) (p : Nat → Prop) [DecidablePred p]
    (g : Nat → Nat) :
    (l.map (fun c => if p c then g c else 0)).sum
      = ((l.filter (fun c => decide (p c))).map g).sum := by
  induction l with
  | nil => rfl
  | cons a l ih =>
    by_cases h : p a <;>
      simp [List.filter_cons, h, ih]

theorem Tree.subtreeSize_eq (t : Tree T) (i : Nat) :
    t.subtreeSize i
      = 1 + t.sizeSum ((t.childrenD i).filter
          (fun c => decide (i < c ∧ c < t.nodes.length))) := by
  rw [Tree.subtreeSize, Tree.preorder]
  simp only [List.length_cons, List.length_flatMap]
  have hmap : List.map (List.length ∘ fun c =>
        if h : i < c ∧ c < t.nodes.length then t.preorder c else []) (t.childrenD i)
      = List.map (fun c => if i < c ∧ c < t.nodes.length then t.subtreeSize c else 0)
          (t.childrenD i) := by
    apply List.map_congr_left
    intro c _
    by_cases h : i < c ∧ c < t.nodes.length <;> simp [h, Tree.subtreeSize]
  rw [hmap, List.sum_map_ite_zero (t.childrenD i)
    (fun c => i < c ∧ c < t.nodes.length) t.subtreeSize, Tree.sizeSum]
  omega

theorem Tree.subtreeSize_pos (t : Tree T) (i : Nat) : 0 < t.subtreeSize i := by
  rw [Tree.subtreeSize, Tree.preorder]; simp

/-- Modelled reference traversal for `bfs`: process the queue front to
back, appending (guarded) children at the back.  Terminates because the
total subtree size of the queue strictly decreases. -/
def Tree.bfsList (t : Tree T) : List Nat → List Nat
  | [] => []
  | i :: rest =>
    i :: t.bfsList (rest ++ (t.childrenD i).filter
      (fun c => decide (i < c ∧ c < t.nodes.length)))
termination_by q => t.sizeSum q
decreasing_by
  simp only [Tree.sizeSum, List.map_append, List.sum_append, List.map_cons,
    List.sum_cons]
  have h := Tree.subtreeSize_eq t i
  rw [Tree.sizeSum] at h
  omega

/-- Modelled reference levels for `bfs` (the spec's level-order): level `0`
is the root alone, level `k+1` is the concatenation of the children of
level `k`'s nodes in order. -/
def Tree.level (t : Tree T) (r : Nat) : Nat → List Nat
  | 0 => [r]
  | k+1 => (t.level r k).flatMap t.childrenD

/-- Reachability along child links: `ReachFrom t a b` means `b` lies in
the subtree below `a`. -/
inductive Tree.ReachFrom (t : Tree T) (a : Nat) : Nat → Prop
  | refl : Tree.ReachFrom t a a
  | child {b c : Nat} : Tree.ReachFrom t a b → c ∈ t.childrenD b → Tree.ReachFrom t a c

/-- The mutating operations of the public API, for stating multi-step
stability properties. -/
inductive Op (T : Type) where
  | setRoot : T → Op T
  | addChild : Nat → T → Op T
  | writeData : Nat → T → Op T
deriving DecidableEq

/-- One public mutating call with Rust panic semantics: on a fault the
program aborts, leaving the tree exactly as it was (the asserts run before
any mutation), reported here as `(t, none)`; on success the new tree and
the returned handle (`none` for a payload write, which returns no handle). -/
def Tree.step (t : Tree T) : Op T → Tree T × Option Nat
  | .setRoot v =>
    match t.set_root v with
    | none => (t, none)
    | some p => (p.2, some p.1)
  | .addChild p v =>
    match t.add_child p v with
    | none => (t, none)
    | some q => (q.2, some q.1)
  | .writeData i v =>
    match t.write i v with
    | none => (t, none)
    | some t' => (t', none)

/-- Run a sequence of public mutating calls. -/
def Tree.runOps (t : Tree T) (ops : List (Op T)) : Tree T :=
  ops.foldl (fun s op => (s.step op).1) t

/-- The trees reachable from `Tree::new` through successful public
operations. -/
inductive Reached {T : Type} : Tree T → Prop
  | base : Reached Tree.new
  | root {t t' : Tree T} {v : T} {i : Nat} :
      Reached t → t.set_root v = some (i, t') → Reached t'
  | child {t t' : Tree T} {p i : Nat} {v : T} :
      Reached t → t.add_child p v = some (i, t') → Reached t'
  | wr {t t' : Tree T} {i : Nat} {v : T} :
      Reached t → t.write i v = some t' → Reached t'

/-- The arena invariant maintained by the public operations: every slot in
range is occupied; an empty tree has no slots; a non-empty tree is rooted
at handle `0`; a node is parentless exactly when it is the root; children
have strictly larger handles than their parent and are in range; child and
parent links agree in both directions; children lists have no duplicates. -/
def Tree.Inv (t : Tree T) : Prop :=
  (∀ i, i < t.nodes.length → (t.slot i).isSome = true) ∧
  (t.root = none → t.nodes.length = 0) ∧
  (t.root = none ∨ (t.root = some 0 ∧ 0 < t.nodes.length)) ∧
  (∀ i, i < t.nodes.length → ((t.parentD i = none) ↔ t.root = some i)) ∧
  (∀ i, i < t.nodes.length → ∀ c ∈ t.childrenD i, i < c ∧ c < t.nodes.length) ∧
  (∀ i, i < t.nodes.length → ∀ c ∈ t.childrenD i, t.parentD c = some i) ∧
  (∀ i, i < t.nodes.length →
    t.root = some i ∨ ∃ p, p < i ∧ t.parentD i = some p ∧ i ∈ t.childrenD p) ∧
  (∀ i, i < t.nodes.length → (t.childrenD i).Nodup)

instance Tree.Inv.instDecidable {t : Tree T} : Decidable t.Inv := by
  unfold Tree.Inv
  infer_instance

/-- The six-node example tree of the specification's concrete scenario:
root `"root"` with children `"a"` (children `"a1"`, `"a2"`) and `"b"`
(child `"b1"`), built in that insertion order. -/
def exTree : Tree String :=
  { nodes :=
      [ some ⟨"root", none, [1, 4]⟩,
        some ⟨"a", some 0, [2, 3]⟩,
        some ⟨"a1", some 1, []⟩,
        some ⟨"a2", some 1, []⟩,
        some ⟨"b", some 0, [5]⟩,
        some ⟨"b1", some 4, []⟩ ],
    root := some 0 }

/-- A tree holding only a root node. -/
def exRoot : Tree String :=
  { nodes := [some ⟨"root", none, []⟩], root := some 0 }

/-! Basic facts about slots and the mutating operations -/

theorem Tree.lt_of_slot_isSome {t : Tree T} {i : Nat}
    (h : (t.slot i).isSome = true) : i < t.nodes.length := by
  by_contra hlt
  rw [Tree.slot, List.getElem?_eq_none (by omega)] at h
  simp [Option.join] at h

theorem Tree.slot_of_nodes_getElem? {t : Tree T} {i : Nat} {n : Node T}
    (h : t.nodes[i]? = some (some n)) : t.slot i = some n := by
  rw [Tree.slot, h]; rfl

theorem Tree.set_root_some {t t' : Tree T} {v : T} {i : Nat}
    (h : t.set_root v = some (i, t')) :
    t.root = none ∧ i = t.nodes.length ∧
      t'.nodes = t.nodes ++ [some ⟨v, none, []⟩] ∧
      t'.root = some t.nodes.length := by
  cases hr : t.root with
  | some r => rw [Tree.set_root, hr] at h; cases h
  | none =>
    rw [Tree.set_root, hr] at h
    simp only [Tree.alloc, Option.some.injEq, Prod.mk.injEq] at h
    obtain ⟨hi, ht⟩ := h
    exact ⟨rfl, hi.symm, by rw [← ht], by rw [← ht]⟩

theorem Tree.set_root_none_iff {t : Tree T} {v : T} :
    t.set_root v = none ↔ t.root.isSome = true := by
  cases hr : t.root <;> simp [Tree.set_root, hr, Tree.alloc]

theorem Tree.write_some {t t' : Tree T} {i : Nat} {v : T}
    (h : t.write i v = some t') :
    ∃ n, t.slot i = some n ∧
      t'.nodes = t.nodes.set i (some { n with data := v }) ∧
      t'.root = t.root := by
  rw [Tree.write] at h
  by_cases hs : (t.slot i).isSome = true
  · obtain ⟨n, hn⟩ := Option.isSome_iff_exists.mp hs
    refine ⟨n, hn, ?_, ?_⟩
    · simp only [hs, if_true, Option.some.injEq] at h
      rw [← h, Tree.writeNode, hn]
    · simp only [hs, if_true, Option.some.injEq] at h
      rw [← h, Tree.writeNode, hn]
  · simp [hs] at h

theorem Tree.write_none_iff {t : Tree T} {i : Nat} {v : T} :
    t.write i v = none ↔ (t.slot i).isSome = false := by
  by_cases hs : (t.slot i).isSome = true <;> simp [Tree.write, hs]

theorem Tree.writeNode_eq {t : Tree T} {i : Nat} {n : Node T}
    (hn : t.slot i = some n) (f : Node T → Node T) :
    t.writeNode i f = { t with nodes := t.nodes.set i (some (f n)) } := by
  unfold Tree.writeNode
  rw [hn]

theorem Tree.add_child_some {t t' : Tree T} {p c : Nat} {v : T}
    (h : t.add_child p v = some (c, t')) :
    ∃ n, t.slot p = some n ∧ c = t.nodes.length ∧
      t'.nodes = (t.nodes ++ [some (Node.mk v (some p) [])]).set p
        (some { n with children := n.children ++ [t.nodes.length] }) ∧
      t'.root = t.root := by
  rw [Tree.add_child] at h
  by_cases hs : (t.slot p).isSome = true
  · obtain ⟨n, hn⟩ := Option.isSome_iff_exists.mp hs
    have hp : p < t.nodes.length := Tree.lt_of_slot_isSome hs
    have hslot : (t.alloc (Node.mk v (some p) [])).2.slot p = some n := by
      show (t.nodes ++ [some (Node.mk v (some p) [])])[p]?.join = some n
      rw [List.getElem?_append, if_pos hp]
      exact hn
    simp only [hs, if_true, Option.some.injEq, Prod.mk.injEq] at h
    obtain ⟨hc, ht⟩ := h
    rw [Tree.writeNode_eq hslot] at ht
    refine ⟨n, hn, hc.symm, ?_, ?_⟩
    · rw [← ht]; rfl
    · rw [← ht]; rfl
  · simp [hs] at h

theorem Tree.add_child_none_iff {t : Tree T} {p : Nat} {v : T} :
    t.add_child p v = none ↔ (t.slot p).isSome = false := by
  by_cases hs : (t.slot p).isSome = true <;> simp [Tree.add_child, hs]

/-- Slot-level description of a successful `add_child`. -/
theorem Tree.add_child_slots {t t' : Tree T} {p c : Nat} {v : T}
    (h : t.add_child p v = some (c, t')) :
    c = t.nodes.length ∧ t'.nodes.length = t.nodes.length + 1 ∧
      t'.root = t.root ∧ t'.slot c = some (Node.mk v (some p) []) ∧
      (∀ n, t.slot p = some n →
        t'.slot p = some { n with children := n.children ++ [c] }) ∧
      (∀ j, j ≠ p → j ≠ c → t'.slot j = t.slot j) := by
  obtain ⟨n, hn, hc, hnodes, hroot⟩ := Tree.add_child_some h
  have hp : p < t.nodes.length := Tree.lt_of_slot_isSome (by rw [hn]; rfl)
  have hlen : t'.nodes.length = t.nodes.length + 1 := by
    rw [hnodes]; simp
  refine ⟨hc, hlen, hroot, ?_, ?_, ?_⟩
  · rw [Tree.slot, hnodes, List.getElem?_set, if_neg (by omega)]
    rw [hc, List.getElem?_concat_length]
    rfl
  · intro m hm
    rw [hn] at hm
    cases hm
    rw [Tree.slot, hnodes, List.getElem?_set, if_pos rfl,
      if_pos (by rw [List.length_append]; simp; omega), hc]
    rfl
  · intro j hjp hjc
    rw [Tree.slot, hnodes, List.getElem?_set, if_neg (by omega)]
    rw [List.getElem?_append]
    by_cases hj : j < t.nodes.length
    · rw [if_pos hj, ← Tree.slot]
    · rw [if_neg hj, Tree.slot]
      have h1 : t.nodes[j]? = none := List.getElem?_eq_none (by omega)
      have h2 : [some (Node.mk v (some p) [])][j - t.nodes.length]? = none :=
        List.getElem?_eq_none (by simp; omega)
      rw [h1, h2]

/-- Slot-level description of a successful `set_root`. -/
theorem Tree.set_root_slots {t t' : Tree T} {v : T} {i : Nat}
    (h : t.set_root v = some (i, t')) :
    t.root = none ∧ i = t.nodes.length ∧ t'.root = some t.nodes.length ∧
      t'.nodes.length = t.nodes.length + 1 ∧
      t'.slot i = some (Node.mk v none []) ∧
      (∀ j, j ≠ i → t'.slot j = t.slot j) := by
  obtain ⟨hr, hi, hnodes, hroot⟩ := Tree.set_root_some h
  refine ⟨hr, hi, hroot, by rw [hnodes]; simp, ?_, ?_⟩
  · rw [Tree.slot, hnodes, hi, List.getElem?_concat_length]
    rfl
  · intro j hj
    rw [Tree.slot, hnodes, List.getElem?_append]
    by_cases hjl : j < t.nodes.length
    · rw [if_pos hjl, ← Tree.slot]
    · rw [if_neg hjl, Tree.slot]
      have h1 : t.nodes[j]? = none := List.getElem?_eq_none (by omega)
      have h2 : [some (Node.mk v none [])][j - t.nodes.length]? = none :=
        List.getElem?_eq_none (by simp; omega)
      rw [h1, h2]

/-- Slot-level description of a successful payload write. -/
theorem Tree.write_slots {t t' : Tree T} {i : Nat} {v : T}
    (h : t.write i v = some t') :
    t'.root = t.root ∧ t'.nodes.length = t.nodes.length ∧
      (∀ n, t.slot i = some n → t'.slot i = some { n with data := v }) ∧
      (∀ j, j ≠ i → t'.slot j = t.slot j) := by
  obtain ⟨n, hn, hnodes, hroot⟩ := Tree.write_some h
  have hi : i < t.nodes.length := Tree.lt_of_slot_isSome (by rw [hn]; rfl)
  refine ⟨hroot, by rw [hnodes]; simp, ?_, ?_⟩
  · intro m hm
    rw [hn] at hm
    cases hm
    rw [Tree.slot, hnodes, List.getElem?_set, if_pos rfl, if_pos hi]
    rfl
  · intro j hj
    rw [Tree.slot, hnodes, List.getElem?_set, if_neg (fun hij => hj hij.symm)]
    rfl

theorem Tree.childrenD_of_slot {t : Tree T} {i : Nat} {n : Node T}
    (h : t.slot i = some n) : t.childrenD i = n.children := by
  rw [Tree.childrenD, h]
  rfl

theorem Tree.parentD_of_slot {t : Tree T} {i : Nat} {n : Node T}
    (h : t.slot i = some n) : t.parentD i = n.parent := by
  rw [Tree.parentD, h]
  rfl

theorem Tree.childrenD_of_slot_none {t : Tree T} {i : Nat}
    (h : t.slot i = none) : t.childrenD i = [] := by
  rw [Tree.childrenD, h]
  rfl

theorem Tree.parentD_of_slot_none {t : Tree T} {i : Nat}
    (h : t.slot i = none) : t.parentD i = none := by
  rw [Tree.parentD, h]
  rfl

/-- Link-level description of a successful `add_child`. -/
theorem Tree.add_child_links {t t' : Tree T} {p c : Nat} {v : T}
    (h : t.add_child p v = some (c, t')) :
    c = t.nodes.length ∧ t'.nodes.length = t.nodes.length + 1 ∧
      t'.root = t.root ∧
      t'.childrenD p = t.childrenD p ++ [c] ∧ t'.childrenD c = [] ∧
      (∀ j, j ≠ p → j ≠ c → t'.childrenD j = t.childrenD j) ∧
      t'.parentD c = some p ∧
      (∀ j, j ≠ c → t'.parentD j = t.parentD j) ∧
      (∀ j, (t'.slot j).isSome = true ↔ ((t.slot j).isSome = true ∨ j = c)) := by
  obtain ⟨n, hn, -, -, -⟩ := Tree.add_child_some h
  obtain ⟨hc, hlen, hroot, hsc, hsp, hsj⟩ := Tree.add_child_slots h
  have hp : p < t.nodes.length := Tree.lt_of_slot_isSome (by rw [hn]; rfl)
  have hpc : p ≠ c := by omega
  have hsp' := hsp n hn
  refine ⟨hc, hlen, hroot, ?_, ?_, ?_, ?_, ?_, ?_⟩
  · rw [Tree.childrenD_of_slot hsp', Tree.childrenD_of_slot hn]
  · rw [Tree.childrenD_of_slot hsc]
  · intro j hjp hjc
    rw [Tree.childrenD, hsj j hjp hjc, ← Tree.childrenD]
  · rw [Tree.parentD_of_slot hsc]
  · intro j hjc
    by_cases hjp : j = p
    · subst hjp
      rw [Tree.parentD_of_slot hsp', Tree.parentD_of_slot hn]
    · rw [Tree.parentD, hsj j hjp hjc, ← Tree.parentD]
  · intro j
    by_cases hjc : j = c
    · subst hjc
      rw [hsc]
      simp [Option.isSome]
    · by_cases hjp : j = p
      · subst hjp
        rw [hsp', hn]
        simp [Option.isSome, hjc]
      · rw [hsj j hjp hjc]
        simp [hjc]

/-- Link-level description of a successful payload write: only the payload
changes. -/
theorem Tree.write_links {t t' : Tree T} {i : Nat} {v : T}
    (h : t.write i v = some t') :
    t'.root = t.root ∧ t'.nodes.length = t.nodes.length ∧
      (∀ j, t'.parentD j = t.parentD j) ∧
      (∀ j, t'.childrenD j = t.childrenD j) ∧
      (∀ j, (t'.slot j).isSome = (t.slot j).isSome) := by
  obtain ⟨n, hn, -, -⟩ := Tree.write_some h
  obtain ⟨hroot, hlen, hsi, hsj⟩ := Tree.write_slots h
  have hsi' := hsi n hn
  refine ⟨hroot, hlen, ?_, ?_, ?_⟩
  · intro j
    by_cases hj : j = i
    · subst hj
      rw [Tree.parentD_of_slot hsi', Tree.parentD_of_slot hn]
    · rw [Tree.parentD, hsj j hj, ← Tree.parentD]
  · intro j
    by_cases hj : j = i
    · subst hj
      rw [Tree.childrenD_of_slot hsi', Tree.childrenD_of_slot hn]
    · rw [Tree.childrenD, hsj j hj, ← Tree.childrenD]
  · intro j
    by_cases hj : j = i
    · subst hj
      rw [hsi', hn]
      rfl
    · rw [hsj j hj]

/-! The invariant is established by `new` and preserved by every
public operation -/

theorem Tree.inv_new : (Tree.new : Tree T).Inv := by
  refine ⟨?_, ?_, ?_, ?_, ?_, ?_, ?_, ?_⟩ <;>
    simp [Tree.new]

theorem Tree.inv_set_root {t t' : Tree T} {v : T} {i : Nat}
    (hinv : t.Inv) (h : t.set_root v = some (i, t')) : t'.Inv := by
  obtain ⟨hs, hlen0, hroot0, hpar, hcu, hcp, hpc, hnd⟩ := hinv
  obtain ⟨hr, hi, hroot, hlen, hsi, hsj⟩ := Tree.set_root_slots h
  have hnil : t.nodes.length = 0 := hlen0 hr
  have hr' : t'.root = some 0 := by rw [hroot, hnil]
  have hlen' : t'.nodes.length = 1 := by omega
  have hslot0 : t'.slot 0 = some (Node.mk v none []) := by
    have hi0 : i = 0 := by omega
    rw [← hi0]
    exact hsi
  refine ⟨?_, ?_, ?_, ?_, ?_, ?_, ?_, ?_⟩
  · intro j hj
    rw [hlen'] at hj
    have hj0 : j = 0 := by omega
    subst hj0
    rw [hslot0]
    rfl
  · intro hcontra
    rw [hr'] at hcontra
    cases hcontra
  · exact Or.inr ⟨hr', by omega⟩
  · intro j hj
    rw [hlen'] at hj
    have hj0 : j = 0 := by omega
    subst hj0
    rw [Tree.parentD_of_slot hslot0, hr']
    simp
  · intro j hj cc hcc
    rw [hlen'] at hj
    have hj0 : j = 0 := by omega
    subst hj0
    rw [Tree.childrenD_of_slot hslot0] at hcc
    cases hcc
  · intro j hj cc hcc
    rw [hlen'] at hj
    have hj0 : j = 0 := by omega
    subst hj0
    rw [Tree.childrenD_of_slot hslot0] at hcc
    cases hcc
  · intro j hj
    rw [hlen'] at hj
    have hj0 : j = 0 := by omega
    subst hj0
    exact Or.inl hr'
  · intro j hj
    rw [hlen'] at hj
    have hj0 : j = 0 := by omega
    subst hj0
    rw [Tree.childrenD_of_slot hslot0]
    exact List.nodup_nil

theorem Tree.inv_add_child {t t' : Tree T} {p c : Nat} {v : T}
    (hinv : t.Inv) (h : t.add_child p v = some (c, t')) : t'.Inv := by
  obtain ⟨hs, hlen0, hroot0, hpar, hcu, hcp, hpc, hnd⟩ := hinv
  obtain ⟨hc, hlen, hroot, hchp, hchc, hchj, hpac, hpaj, hsome⟩ :=
    Tree.add_child_links h
  obtain ⟨n, hn, -, -, -⟩ := Tree.add_child_some h
  have hp : p < t.nodes.length := Tree.lt_of_slot_isSome (by rw [hn]; rfl)
  have hrs : t.root = some 0 ∧ 0 < t.nodes.length := by
    rcases hroot0 with h0 | h0
    · exact absurd (hlen0 h0) (by omega)
    · exact h0
  refine ⟨?_, ?_, ?_, ?_, ?_, ?_, ?_, ?_⟩
  · intro j hj
    rw [hlen] at hj
    rw [hsome j]
    by_cases hjc : j = c
    · exact Or.inr hjc
    · exact Or.inl (hs j (by omega))
  · intro h0
    rw [hroot, hrs.1] at h0
    cases h0
  · refine Or.inr ⟨by rw [hroot, hrs.1], by omega⟩
  · intro j hj
    rw [hlen] at hj
    by_cases hjc : j = c
    · subst hjc
      rw [hpac, hroot, hrs.1]
      constructor
      · intro hx; cases hx
      · intro hx
        exfalso
        have : (0 : Nat) = j := by injection hx
        omega
    · rw [hpaj j hjc, hroot]
      exact hpar j (by omega)
  · intro j hj cc hcc
    rw [hlen] at hj
    by_cases hjp : j = p
    · subst hjp
      rw [hchp] at hcc
      rcases List.mem_append.mp hcc with hold | hnew
      · have := hcu j hp cc hold
        omega
      · have : cc = c := List.mem_singleton.mp hnew
        omega
    · by_cases hjc : j = c
      · subst hjc
        rw [hchc] at hcc
        cases hcc
      · rw [hchj j hjp hjc] at hcc
        have := hcu j (by omega) cc hcc
        omega
  · intro j hj cc hcc
    rw [hlen] at hj
    by_cases hjp : j = p
    · subst hjp
      rw [hchp] at hcc
      rcases List.mem_append.mp hcc with hold | hnew
      · have hcc' : t.parentD cc = some j := hcp j hp cc hold
        have hlt := hcu j hp cc hold
        rw [hpaj cc (by omega)]
        exact hcc'
      · have : cc = c := List.mem_singleton.mp hnew
        subst this
        exact hpac
    · by_cases hjc : j = c
      · subst hjc
        rw [hchc] at hcc
        cases hcc
      · rw [hchj j hjp hjc] at hcc
        have hcc' : t.parentD cc = some j := hcp j (by omega) cc hcc
        have hlt := hcu j (by omega) cc hcc
        rw [hpaj cc (by omega)]
        exact hcc'
  · intro j hj
    rw [hlen] at hj
    by_cases hjc : j = c
    · subst hjc
      refine Or.inr ⟨p, by omega, hpac, ?_⟩
      rw [hchp]
      exact List.mem_append.mpr (Or.inr (List.mem_singleton.mpr rfl))
    · rcases hpc j (by omega) with h0 | ⟨q, hq, hqp, hqc⟩
      · exact Or.inl (by rw [hroot]; exact h0)
      · refine Or.inr ⟨q, hq, by rw [hpaj j hjc]; exact hqp, ?_⟩
        have hqlen : q < t.nodes.length := by omega
        by_cases hqpeq : q = p
        · subst hqpeq
          rw [hchp]
          exact List.mem_append.mpr (Or.inl hqc)
        · rw [hchj q hqpeq (by omega)]
          exact hqc
  · intro j hj
    rw [hlen] at hj
    by_cases hjp : j = p
    · subst hjp
      rw [hchp]
      have hnodup := hnd j hp
      have hnotmem : c ∉ t.childrenD j := by
        intro hmem
        have := hcu j hp c hmem
        omega
      rw [List.nodup_append]
      refine ⟨hnodup, List.nodup_singleton c, ?_⟩
      intro x hx hx'
      have : x = c := List.mem_singleton.mp hx'
      subst this
      exact hnotmem hx
    · by_cases hjc : j = c
      · subst hjc
        rw [hchc]
        exact List.nodup_nil
      · rw [hchj j hjp hjc]
        exact hnd j (by omega)

theorem Tree.inv_write {t t' : Tree T} {i : Nat} {v : T}
    (hinv : t.Inv) (h : t.write i v = some t') : t'.Inv := by
  obtain ⟨hs, hlen0, hroot0, hpar, hcu, hcp, hpc, hnd⟩ := hinv
  obtain ⟨hroot, hlen, hpa, hch, hsm⟩ := Tree.write_links h
  refine ⟨?_, ?_, ?_, ?_, ?_, ?_, ?_, ?_⟩
  · intro j hj
    rw [hsm j]
    exact hs j (by omega)
  · intro h0
    rw [hroot] at h0
    rw [hlen]
    exact hlen0 h0
  · rcases hroot0 with h0 | h0
    · exact Or.inl (by rw [hroot]; exact h0)
    · exact Or.inr ⟨by rw [hroot]; exact h0.1, by omega⟩
  · intro j hj
    rw [hpa j, hroot]
    exact hpar j (by omega)
  · intro j hj cc hcc
    rw [hch j] at hcc
    have := hcu j (by omega) cc hcc
    omega
  · intro j hj cc hcc
    rw [hch j] at hcc
    rw [hpa cc]
    exact hcp j (by omega) cc hcc
  · intro j hj
    rcases hpc j (by omega) with h0 | ⟨q, hq, hqp, hqc⟩
    · exact Or.inl (by rw [hroot]; exact h0)
    · exact Or.inr ⟨q, hq, by rw [hpa j]; exact hqp, by rw [hch q]; exact hqc⟩
  · intro j hj
    rw [hch j]
    exact hnd j (by omega)

/-- Every tree reachable through the public operations satisfies the
arena invariant. -/
theorem Tree.reached_inv {t : Tree T} (h : Reached t) : t.Inv := by
  induction h with
  | base => exact Tree.inv_new
  | root hr hstep ih => exact Tree.inv_set_root ih hstep
  | child hr hstep ih => exact Tree.inv_add_child ih hstep
  | wr hr hstep ih => exact Tree.inv_write ih hstep

/-! Pre-order reference sequence: membership, bounds, reachability -/

theorem flatMap_congr_mem {α β : Type} {l : List α} {f g : α → List β}
    (h : ∀ a ∈ l, f a = g a) : l.flatMap f = l.flatMap g := by
  induction l with
  | nil => rfl
  | cons a l ih =>
    rw [List.flatMap_cons, List.flatMap_cons, h a (by simp),
      ih (fun x hx => h x (by simp [hx]))]

/-- Under the invariant the guards in `preorder` always pass. -/
theorem Tree.preorder_unfold {t : Tree T} (hinv : t.Inv) {i : Nat}
    (hi : i < t.nodes.length) :
    t.preorder i = i :: (t.childrenD i).flatMap t.preorder := by
  obtain ⟨-, -, -, -, hcu, -, -, -⟩ := hinv
  rw [Tree.preorder]
  congr 1
  apply flatMap_congr_mem
  intro c hc
  rw [dif_pos (hcu i hi c hc)]

theorem Tree.mem_preorder_self (t : Tree T) (i : Nat) : i ∈ t.preorder i := by
  rw [Tree.preorder]
  exact List.mem_cons_self i _

theorem Tree.mem_preorder_ge {t : Tree T} {i x : Nat}
    (hx : x ∈ t.preorder i) : i ≤ x := by
  have H : ∀ k i x, t.nodes.length - i ≤ k → x ∈ t.preorder i → i ≤ x := by
    intro k
    induction k with
    | zero =>
      intro i x hk hx
      rw [Tree.preorder] at hx
      rcases List.mem_cons.mp hx with rfl | hx'
      · exact le_refl x
      · obtain ⟨c, hc, hxc⟩ := List.mem_flatMap.mp hx'
        rw [dif_neg (by omega)] at hxc
        cases hxc
    | succ k ih =>
      intro i x hk hx
      rw [Tree.preorder] at hx
      rcases List.mem_cons.mp hx with rfl | hx'
      · exact le_refl x
      · obtain ⟨c, hc, hxc⟩ := List.mem_flatMap.mp hx'
        by_cases hg : i < c ∧ c < t.nodes.length
        · rw [dif_pos hg] at hxc
          have := ih c x (by omega) hxc
          omega
        · rw [dif_neg hg] at hxc
          cases hxc
  exact H (t.nodes.length - i) i x (le_refl _) hx

theorem Tree.mem_preorder_lt {t : Tree T} {i x : Nat}
    (hi : i < t.nodes.length) (hx : x ∈ t.preorder i) : x < t.nodes.length := by
  have H : ∀ k i x, t.nodes.length - i ≤ k → i < t.nodes.length →
      x ∈ t.preorder i → x < t.nodes.length := by
    intro k
    induction k with
    | zero =>
      intro i x hk hi hx
      omega
    | succ k ih =>
      intro i x hk hi hx
      rw [Tree.preorder] at hx
      rcases List.mem_cons.mp hx with rfl | hx'
      · exact hi
      · obtain ⟨c, hc, hxc⟩ := List.mem_flatMap.mp hx'
        by_cases hg : i < c ∧ c < t.nodes.length
        · rw [dif_pos hg] at hxc
          exact ih c x (by omega) hg.2 hxc
        · rw [dif_neg hg] at hxc
          cases hxc
  exact H (t.nodes.length - i) i x (le_refl _) hi hx

/-- Pre-order membership is transitive (no invariant needed: the guards
cut off exactly the same subtrees on both sides). -/
theorem Tree.mem_preorder_trans {t : Tree T} {i b x : Nat}
    (hb : b ∈ t.preorder i) (hx : x ∈ t.preorder b) : x ∈ t.preorder i := by
  have H : ∀ k i b x, t.nodes.length - i ≤ k → b ∈ t.preorder i →
      x ∈ t.preorder b → x ∈ t.preorder i := by
    intro k
    induction k with
    | zero =>
      intro i b x hk hb hx
      rw [Tree.preorder] at hb
      rcases List.mem_cons.mp hb with rfl | hb'
      · exact hx
      · obtain ⟨c, hc, hbc⟩ := List.mem_flatMap.mp hb'
        rw [dif_neg (by omega)] at hbc
        cases hbc
    | succ k ih =>
      intro i b x hk hb hx
      rw [Tree.preorder] at hb
      rcases List.mem_cons.mp hb with rfl | hb'
      · exact hx
      · obtain ⟨c, hc, hbc⟩ := List.mem_flatMap.mp hb'
        by_cases hg : i < c ∧ c < t.nodes.length
        · rw [dif_pos hg] at hbc
          have hxc : x ∈ t.preorder c := ih c b x (by omega) hbc hx
          rw [Tree.preorder]
          refine List.mem_cons.mpr (Or.inr ?_)
          exact List.mem_flatMap.mpr ⟨c, hc, by rw [dif_pos hg]; exact hxc⟩
        · rw [dif_neg hg] at hbc
          cases hbc
  exact H (t.nodes.length - i) i b x (le_refl _) hb hx

theorem Tree.reach_trans {t : Tree T} {a b c : Nat}
    (h1 : t.ReachFrom a b) (h2 : t.ReachFrom b c) : t.ReachFrom a c := by
  induction h2 with
  | refl => exact h1
  | child hr hc ih => exact Tree.ReachFrom.child ih hc

/-- Without any invariant, everything in `preorder i` is reachable
from `i` along child links. -/
theorem Tree.reach_of_mem_preorder {t : Tree T} {i x : Nat}
    (hx : x ∈ t.preorder i) : t.ReachFrom i x := by
  have H : ∀ k i x, t.nodes.length - i ≤ k → x ∈ t.preorder i →
      t.ReachFrom i x := by
    intro k
    induction k with
    | zero =>
      intro i x hk hx
      rw [Tree.preorder] at hx
      rcases List.mem_cons.mp hx with rfl | hx'
      · exact Tree.ReachFrom.refl
      · obtain ⟨c, hc, hxc⟩ := List.mem_flatMap.mp hx'
        rw [dif_neg (by omega)] at hxc
        cases hxc
    | succ k ih =>
      intro i x hk hx
      rw [Tree.preorder] at hx
      rcases List.mem_cons.mp hx with rfl | hx'
      · exact Tree.ReachFrom.refl
      · obtain ⟨c, hc, hxc⟩ := List.mem_flatMap.mp hx'
        by_cases hg : i < c ∧ c < t.nodes.length
        · rw [dif_pos hg] at hxc
          exact Tree.reach_trans (Tree.ReachFrom.child Tree.ReachFrom.refl hc)
            (ih c x (by omega) hxc)
        · rw [dif_neg hg] at hxc
          cases hxc
  exact H (t.nodes.length - i) i x (le_refl _) hx

/-- Under the invariant, a child of a node of the subtree below `i` is in
the subtree below `i`. -/
theorem Tree.mem_preorder_child {t : Tree T} (hinv : t.Inv) {i b c : Nat}
    (hi : i < t.nodes.length) (hb : b ∈ t.preorder i)
    (hc : c ∈ t.childrenD b) : c ∈ t.preorder i := by
  obtain ⟨-, -, -, -, hcu', -, -, -⟩ := hinv
  have hbL : b < t.nodes.length := Tree.mem_preorder_lt hi hb
  have hcb : c ∈ t.preorder b := by
    rw [Tree.preorder]
    refine List.mem_cons.mpr (Or.inr ?_)
    refine List.mem_flatMap.mpr ⟨c, hc, ?_⟩
    rw [dif_pos (hcu' b hbL c hc)]
    exact Tree.mem_preorder_self t c
  exact Tree.mem_preorder_trans hb hcb

theorem Tree.mem_preorder_iff_reach {t : Tree T} (hinv : t.Inv) {i x : Nat}
    (hi : i < t.nodes.length) :
    x ∈ t.preorder i ↔ t.ReachFrom i x := by
  constructor
  · exact Tree.reach_of_mem_preorder
  · intro hr
    induction hr with
    | refl => exact Tree.mem_preorder_self t i
    | child hr hc ih => exact Tree.mem_preorder_child hinv hi ih hc

theorem Tree.reach_le {t : Tree T} (hinv : t.Inv) {a b : Nat}
    (ha : a < t.nodes.length) (h : t.ReachFrom a b) : a ≤ b :=
  Tree.mem_preorder_ge ((Tree.mem_preorder_iff_reach hinv ha).mpr h)

theorem Tree.reach_lt_len {t : Tree T} (hinv : t.Inv) {a b : Nat}
    (ha : a < t.nodes.length) (h : t.ReachFrom a b) : b < t.nodes.length :=
  Tree.mem_preorder_lt ha ((Tree.mem_preorder_iff_reach hinv ha).mpr h)

theorem Tree.inv_slots {t : Tree T} (hinv : t.Inv) :
    ∀ i, i < t.nodes.length → (t.slot i).isSome = true := hinv.1

theorem Tree.inv_rootNone {t : Tree T} (hinv : t.Inv) :
    t.root = none → t.nodes.length = 0 := hinv.2.1

theorem Tree.inv_rootZero {t : Tree T} (hinv : t.Inv) :
    t.root = none ∨ (t.root = some 0 ∧ 0 < t.nodes.length) := hinv.2.2.1

theorem Tree.inv_parentIffRoot {t : Tree T} (hinv : t.Inv) :
    ∀ i, i < t.nodes.length → ((t.parentD i = none) ↔ t.root = some i) :=
  hinv.2.2.2.1

theorem Tree.inv_childUp {t : Tree T} (hinv : t.Inv) :
    ∀ i, i < t.nodes.length → ∀ c ∈ t.childrenD i,
      i < c ∧ c < t.nodes.length := hinv.2.2.2.2.1

theorem Tree.inv_childParent {t : Tree T} (hinv : t.Inv) :
    ∀ i, i < t.nodes.length → ∀ c ∈ t.childrenD i, t.parentD c = some i :=
  hinv.2.2.2.2.2.1

theorem Tree.inv_parentChild {t : Tree T} (hinv : t.Inv) :
    ∀ i, i < t.nodes.length →
      t.root = some i ∨ ∃ p, p < i ∧ t.parentD i = some p ∧ i ∈ t.childrenD p :=
  hinv.2.2.2.2.2.2.1

theorem Tree.inv_nodup {t : Tree T} (hinv : t.Inv) :
    ∀ i, i < t.nodes.length → (t.childrenD i).Nodup := hinv.2.2.2.2.2.2.2

/-- Splitting a reachability derivation at its last child link. -/
theorem Tree.reach_split {t : Tree T} (hinv : t.Inv) {c x : Nat}
    (hc : c < t.nodes.length) (h : t.ReachFrom c x) :
    x = c ∨ ∃ p, t.parentD x = some p ∧ t.ReachFrom c p := by
  induction h with
  | refl => exact Or.inl rfl
  | @child b y hr hcc ih =>
    right
    have hbL : b < t.nodes.length := Tree.reach_lt_len hinv hc hr
    exact ⟨b, Tree.inv_childParent hinv b hbL y hcc, hr⟩

/-- Subtrees below two distinct siblings are disjoint. -/
theorem Tree.reach_disjoint {t : Tree T} (hinv : t.Inv) {i c1 c2 : Nat}
    (hi : i < t.nodes.length) (hc1 : c1 ∈ t.childrenD i)
    (hc2 : c2 ∈ t.childrenD i) (hne : c1 ≠ c2) :
    ∀ x, t.ReachFrom c1 x → t.ReachFrom c2 x → False := by
  have hb1 := Tree.inv_childUp hinv i hi c1 hc1
  have hb2 := Tree.inv_childUp hinv i hi c2 hc2
  intro x
  induction x using Nat.strong_induction_on with
  | _ x ih =>
    intro h1 h2
    rcases Tree.reach_split hinv hb1.2 h1 with rfl | ⟨p1, hp1, hr1⟩
    · rcases Tree.reach_split hinv hb2.2 h2 with heq | ⟨p2, hp2, hr2⟩
      · exact hne heq
      · have hpc1 : t.parentD x = some i := Tree.inv_childParent hinv i hi x hc1
        rw [hpc1] at hp2
        have hp2i : p2 = i := by injection hp2; omega
        subst hp2i
        have := Tree.reach_le hinv hb2.2 hr2
        omega
    · rcases Tree.reach_split hinv hb2.2 h2 with rfl | ⟨p2, hp2, hr2⟩
      · have hpc2 : t.parentD x = some i := Tree.inv_childParent hinv i hi x hc2
        rw [hpc2] at hp1
        have hp1i : p1 = i := by injection hp1; omega
        subst hp1i
        have := Tree.reach_le hinv hb1.2 hr1
        omega
      · have hpp : p1 = p2 := by
          rw [hp1] at hp2
          injection hp2
        subst hpp
        have hxL : x < t.nodes.length := Tree.reach_lt_len hinv hb1.2 h1
        have hplt : p1 < x := by
          rcases Tree.inv_parentChild hinv x hxL with h0 | ⟨q, hq, hqp, hqc⟩
          · have := (Tree.inv_parentIffRoot hinv x hxL).mpr h0
            rw [this] at hp1
            cases hp1
          · rw [hqp] at hp1
            have : q = p1 := by injection hp1
            omega
        exact ih p1 hplt hr1 hr2

/-- Under the invariant the pre-order sequence has no duplicates. -/
theorem Tree.preorder_nodup {t : Tree T} (hinv : t.Inv) {i : Nat}
    (hi : i < t.nodes.length) : (t.preorder i).Nodup := by
  have H : ∀ k i, t.nodes.length - i ≤ k → i < t.nodes.length →
      (t.preorder i).Nodup := by
    intro k
    induction k with
    | zero => intro i hk hi; omega
    | succ k ih =>
      intro i hk hi
      rw [Tree.preorder_unfold hinv hi, List.nodup_cons]
      constructor
      · intro hmem
        obtain ⟨c, hc, hic⟩ := List.mem_flatMap.mp hmem
        have h1 := Tree.inv_childUp hinv i hi c hc
        have h2 := Tree.mem_preorder_ge hic
        omega
      · rw [List.nodup_flatMap]
        constructor
        · intro c hc
          have h1 := Tree.inv_childUp hinv i hi c hc
          exact ih c (by omega) h1.2
        · have hnd := Tree.inv_nodup hinv i hi
          apply List.Pairwise.imp_of_mem ?_ hnd
          intro c1 c2 h1 h2 hne
          intro x hx1 hx2
          exact Tree.reach_disjoint hinv hi h1 h2 hne x
            (Tree.reach_of_mem_preorder hx1) (Tree.reach_of_mem_preorder hx2)
  exact H (t.nodes.length - i) i (le_refl _) hi

/-- The fueled accumulator implementation of `dfs_rec` computes the
pre-order sequence as soon as the fuel covers the remaining depth. -/
theorem Tree.dfsRec_eq {t : Tree T} (hinv : t.Inv) :
    ∀ (fuel i : Nat) (out : List Nat), i < t.nodes.length →
      t.nodes.length - i ≤ fuel →
      t.dfsRec fuel i out = out ++ t.preorder i := by
  intro fuel
  induction fuel with
  | zero => intro i out hi hf; omega
  | succ fuel ih =>
    intro i out hi hf
    simp only [Tree.dfsRec]
    rw [Tree.preorder_unfold hinv hi]
    have haux : ∀ (cs : List Nat) (acc : List Nat),
        (∀ c ∈ cs, i < c ∧ c < t.nodes.length) →
        cs.foldl (fun acc c => t.dfsRec fuel c acc) acc
          = acc ++ cs.flatMap t.preorder := by
      intro cs
      induction cs with
      | nil => intro acc h; simp
      | cons c cs ihcs =>
        intro acc h
        rw [List.foldl_cons]
        have hc := h c (by simp)
        rw [ih c acc hc.2 (by omega)]
        rw [ihcs (acc ++ t.preorder c) (fun x hx => h x (by simp [hx]))]
        simp [List.flatMap_cons]
    rw [haux (t.childrenD i) (out ++ [i]) (Tree.inv_childUp hinv i hi)]
    simp

theorem Tree.root_some_zero {t : Tree T} (hinv : t.Inv) {r : Nat}
    (hr : t.root = some r) : r = 0 ∧ r < t.nodes.length := by
  rcases Tree.inv_rootZero hinv with h0 | ⟨h0, hL⟩
  · rw [h0] at hr; cases hr
  · rw [h0] at hr
    injection hr with h'
    omega

theorem Tree.dfs_eq_preorder {t : Tree T} (hinv : t.Inv) {r : Nat}
    (hr : t.root = some r) : t.dfs = t.preorder r := by
  have hrL : r < t.nodes.length := (Tree.root_some_zero hinv hr).2
  simp only [Tree.dfs, hr]
  rw [Tree.dfsRec_eq hinv t.nodes.length r [] hrL (by omega)]
  simp

/-- C2: for every tree satisfying the arena invariant, `dfs()` is empty
when there is no root, and otherwise is exactly the pre-order sequence
from the root: it starts at the root, lists each node before its children
with children left to right in insertion order, and contains every node
reachable from the root exactly once. -/
theorem dfs_preorder_correct {T : Type} (t : Tree T) (hinv : t.Inv) :
    (t.root = none → t.dfs = []) ∧
    (∀ r, t.root = some r →
      t.dfs = t.preorder r ∧ t.dfs.head? = some r ∧ t.dfs.Nodup ∧
      (∀ x, x ∈ t.dfs ↔ t.ReachFrom r x)) := by
  constructor
  · intro h
    rw [Tree.dfs, h]
  · intro r hr
    have hrL : r < t.nodes.length := (Tree.root_some_zero hinv hr).2
    have hdfs : t.dfs = t.preorder r := Tree.dfs_eq_preorder hinv hr
    refine ⟨hdfs, ?_, ?_, ?_⟩
    · rw [hdfs, Tree.preorder_unfold hinv hrL]
      rfl
    · rw [hdfs]
      exact Tree.preorder_nodup hinv hrL
    · intro x
      rw [hdfs]
      exact Tree.mem_preorder_iff_reach hinv hrL

theorem dfs_preorder_correct_witness :
    exTree.dfs = exTree.preorder 0 ∧ exTree.dfs.Nodup := by
  have h := (dfs_preorder_correct exTree (by decide)).2 0 rfl
  exact ⟨h.1, h.2.2.1⟩

/-! Level-order reference sequence and the `bfs` loop -/

theorem Tree.children_filter_eq {t : Tree T} (hinv : t.Inv) {i : Nat}
    (hi : i < t.nodes.length) :
    (t.childrenD i).filter (fun c => decide (i < c ∧ c < t.nodes.length))
      = t.childrenD i := by
  apply List.filter_eq_self.mpr
  intro c hc
  exact decide_eq_true (Tree.inv_childUp hinv i hi c hc)

theorem Tree.sizeSum_append (t : Tree T) (q1 q2 : List Nat) :
    t.sizeSum (q1 ++ q2) = t.sizeSum q1 + t.sizeSum q2 := by
  simp [Tree.sizeSum]

theorem Tree.sizeSum_cons (t : Tree T) (i : Nat) (q : List Nat) :
    t.sizeSum (i :: q) = t.subtreeSize i + t.sizeSum q := by
  simp [Tree.sizeSum]

theorem Tree.bfsList_cons {t : Tree T} (hinv : t.Inv) {i : Nat}
    (hi : i < t.nodes.length) (rest : List Nat) :
    t.bfsList (i :: rest) = i :: t.bfsList (rest ++ t.childrenD i) := by
  rw [Tree.bfsList, Tree.children_filter_eq hinv hi]

theorem Tree.preorder_length_le {t : Tree T} (hinv : t.Inv) {i : Nat}
    (hi : i < t.nodes.length) :
    (t.preorder i).length ≤ t.nodes.length := by
  have hnd := Tree.preorder_nodup hinv hi
  have hmem : ∀ x ∈ t.preorder i, x < t.nodes.length :=
    fun x hx => Tree.mem_preorder_lt hi hx
  calc (t.preorder i).length = (t.preorder i).toFinset.card :=
        (List.toFinset_card_of_nodup hnd).symm
    _ ≤ (Finset.range t.nodes.length).card := by
        apply Finset.card_le_card
        intro x hx
        rw [List.mem_toFinset] at hx
        rw [Finset.mem_range]
        exact hmem x hx
    _ = t.nodes.length := Finset.card_range _

/-- The fueled queue loop of `bfs` computes the reference queue traversal
as soon as the fuel covers the total subtree size of the queue. -/
theorem Tree.bfsLoop_eq {t : Tree T} (hinv : t.Inv) :
    ∀ (fuel : Nat) (q res : List Nat), (∀ x ∈ q, x < t.nodes.length) →
      t.sizeSum q ≤ fuel →
      t.bfsLoop fuel q res = res ++ t.bfsList q := by
  intro fuel
  induction fuel with
  | zero =>
    intro q res hq hf
    cases q with
    | nil => simp [Tree.bfsLoop, Tree.bfsList]
    | cons i rest =>
      exfalso
      have h1 := Tree.subtreeSize_pos t i
      rw [Tree.sizeSum_cons] at hf
      omega
  | succ fuel ih =>
    intro q res hq hf
    cases q with
    | nil => simp [Tree.bfsLoop, Tree.bfsList]
    | cons i rest =>
      have hiL : i < t.nodes.length := hq i (by simp)
      have hmem : ∀ x ∈ rest ++ t.childrenD i, x < t.nodes.length := by
        intro x hx
        rcases List.mem_append.mp hx with h | h
        · exact hq x (by simp [h])
        · exact (Tree.inv_childUp hinv i hiL x h).2
      have hsz : t.sizeSum (rest ++ t.childrenD i) ≤ fuel := by
        rw [Tree.sizeSum_append]
        have h2 := Tree.subtreeSize_eq t i
        rw [Tree.children_filter_eq hinv hiL] at h2
        rw [Tree.sizeSum_cons] at hf
        omega
      simp only [Tree.bfsLoop]
      rw [ih (rest ++ t.childrenD i) (res ++ [i]) hmem hsz]
      rw [Tree.bfsList_cons hinv hiL]
      simp

theorem Tree.bfsList_split {t : Tree T} (hinv : t.Inv) :
    ∀ (q1 q2 : List Nat), (∀ x ∈ q1, x < t.nodes.length) →
      t.bfsList (q1 ++ q2) = q1 ++ t.bfsList (q2 ++ q1.flatMap t.childrenD) := by
  intro q1
  induction q1 with
  | nil =>
    intro q2 hq
    simp
  | cons a q1 ih =>
    intro q2 hq
    have haL : a < t.nodes.length := hq a (by simp)
    rw [List.cons_append, Tree.bfsList_cons hinv haL]
    rw [show (q1 ++ q2) ++ t.childrenD a = q1 ++ (q2 ++ t.childrenD a) from by simp]
    rw [ih (q2 ++ t.childrenD a) (fun x hx => hq x (by simp [hx]))]
    simp [List.flatMap_cons]

theorem Tree.rootZero_len {t : Tree T} (hinv : t.Inv) (hr : t.root = some 0) :
    0 < t.nodes.length := by
  rcases Tree.inv_rootZero hinv with h0 | h0
  · rw [h0] at hr; cases hr
  · exact h0.2

theorem Tree.level_bounds {t : Tree T} (hinv : t.Inv) (hr : t.root = some 0) :
    ∀ k x, x ∈ t.level 0 k → k ≤ x ∧ x < t.nodes.length := by
  have hL : 0 < t.nodes.length := Tree.rootZero_len hinv hr
  intro k
  induction k with
  | zero =>
    intro x hx
    rw [Tree.level] at hx
    have hx0 : x = 0 := List.mem_singleton.mp hx
    subst hx0
    exact ⟨le_refl 0, hL⟩
  | succ k ih =>
    intro x hx
    rw [Tree.level] at hx
    obtain ⟨b, hb, hxb⟩ := List.mem_flatMap.mp hx
    have hbk := ih b hb
    have := Tree.inv_childUp hinv b hbk.2 x hxb
    omega

theorem Tree.bfsList_level_step {t : Tree T} (hinv : t.Inv)
    (hr : t.root = some 0) (k : Nat) :
    t.bfsList (t.level 0 k) = t.level 0 k ++ t.bfsList (t.level 0 (k+1)) := by
  have hq : ∀ x ∈ t.level 0 k, x < t.nodes.length :=
    fun x hx => (Tree.level_bounds hinv hr k x hx).2
  have h := Tree.bfsList_split hinv (t.level 0 k) [] hq
  rw [List.append_nil] at h
  rw [h, List.nil_append]
  rfl

theorem Tree.level_len_nil {t : Tree T} (hinv : t.Inv) (hr : t.root = some 0) :
    t.level 0 t.nodes.length = [] := by
  rcases h : t.level 0 t.nodes.length with _ | ⟨x, xs⟩
  · rfl
  · exfalso
    have hx : x ∈ t.level 0 t.nodes.length := by rw [h]; simp
    have := Tree.level_bounds hinv hr _ x hx
    omega

theorem Tree.bfsList_levels {t : Tree T} (hinv : t.Inv) (hr : t.root = some 0) :
    ∀ k, t.bfsList [0]
      = ((List.range k).flatMap (t.level 0)) ++ t.bfsList (t.level 0 k) := by
  intro k
  induction k with
  | zero => simp [Tree.level]
  | succ k ih =>
    rw [ih, Tree.bfsList_level_step hinv hr k, List.range_succ]
    simp [List.flatMap_append, Tree.level]

theorem Tree.sizeSum_root_le {t : Tree T} (hinv : t.Inv)
    (hL : 0 < t.nodes.length) : t.sizeSum [0] ≤ t.nodes.length := by
  have h := Tree.preorder_length_le hinv hL
  rw [Tree.sizeSum_cons]
  rw [Tree.subtreeSize]
  have h0 : t.sizeSum [] = 0 := by simp [Tree.sizeSum]
  omega

theorem Tree.bfs_eq_levels {t : Tree T} (hinv : t.Inv) (hr : t.root = some 0) :
    t.bfs = (List.range t.nodes.length).flatMap (t.level 0) := by
  have hL : 0 < t.nodes.length := Tree.rootZero_len hinv hr
  simp only [Tree.bfs, hr]
  rw [Tree.bfsLoop_eq hinv t.nodes.length [0] []
    (by intro x hx; simp at hx; omega) (Tree.sizeSum_root_le hinv hL)]
  rw [List.nil_append, Tree.bfsList_levels hinv hr t.nodes.length,
    Tree.level_len_nil hinv hr]
  simp [Tree.bfsList]

theorem Tree.bfs_head {t : Tree T} (hinv : t.Inv) (hr : t.root = some 0) :
    t.bfs.head? = some 0 := by
  have hL : 0 < t.nodes.length := Tree.rootZero_len hinv hr
  simp only [Tree.bfs, hr]
  rw [Tree.bfsLoop_eq hinv t.nodes.length [0] []
    (by intro x hx; simp at hx; omega) (Tree.sizeSum_root_le hinv hL)]
  rw [List.nil_append, show ([0] : List Nat) = 0 :: [] from rfl,
    Tree.bfsList_cons hinv hL]
  rfl

theorem Tree.reach_of_level {t : Tree T} {k x : Nat} (hx : x ∈ t.level 0 k) :
    t.ReachFrom 0 x := by
  induction k generalizing x with
  | zero =>
    rw [Tree.level] at hx
    have hx0 : x = 0 := List.mem_singleton.mp hx
    subst hx0
    exact Tree.ReachFrom.refl
  | succ k ih =>
    rw [Tree.level] at hx
    obtain ⟨b, hb, hxb⟩ := List.mem_flatMap.mp hx
    exact Tree.ReachFrom.child (ih hb) hxb

theorem Tree.level_of_reach {t : Tree T} {x : Nat} (h : t.ReachFrom 0 x) :
    ∃ k, x ∈ t.level 0 k := by
  induction h with
  | refl => exact ⟨0, by rw [Tree.level]; simp⟩
  | @child b y hr hc ih =>
    obtain ⟨k, hk⟩ := ih
    exact ⟨k+1, by rw [Tree.level]; exact List.mem_flatMap.mpr ⟨b, hk, hc⟩⟩

theorem Tree.level_zero_succ_absurd {t : Tree T} (hinv : t.Inv)
    (hr : t.root = some 0) {x m : Nat}
    (h0 : x ∈ t.level 0 0) (hm : x ∈ t.level 0 (m+1)) : False := by
  rw [Tree.level] at h0
  have hx0 : x = 0 := List.mem_singleton.mp h0
  subst hx0
  rw [Tree.level] at hm
  obtain ⟨b, hb, hxb⟩ := List.mem_flatMap.mp hm
  have hbL := (Tree.level_bounds hinv hr m b hb).2
  have hpar := Tree.inv_childParent hinv b hbL 0 hxb
  have hL : 0 < t.nodes.length := Tree.rootZero_len hinv hr
  have hpn : t.parentD 0 = none := (Tree.inv_parentIffRoot hinv 0 hL).mpr hr
  rw [hpn] at hpar
  cases hpar

theorem Tree.level_unique {t : Tree T} (hinv : t.Inv) (hr : t.root = some 0) :
    ∀ x k m, x ∈ t.level 0 k → x ∈ t.level 0 m → k = m := by
  intro x
  induction x using Nat.strong_induction_on with
  | _ x ih =>
    intro k m hk hm
    cases k with
    | zero =>
      cases m with
      | zero => rfl
      | succ m => exact absurd hm (fun h => Tree.level_zero_succ_absurd hinv hr hk h)
    | succ k =>
      cases m with
      | zero => exact absurd hk (fun h => Tree.level_zero_succ_absurd hinv hr hm h)
      | succ m =>
        rw [Tree.level] at hk hm
        obtain ⟨b1, hb1, hxb1⟩ := List.mem_flatMap.mp hk
        obtain ⟨b2, hb2, hxb2⟩ := List.mem_flatMap.mp hm
        have hb1L := (Tree.level_bounds hinv hr k b1 hb1).2
        have hb2L := (Tree.level_bounds hinv hr m b2 hb2).2
        have hp1 := Tree.inv_childParent hinv b1 hb1L x hxb1
        have hp2 := Tree.inv_childParent hinv b2 hb2L x hxb2
        have hbb : b1 = b2 := by
          rw [hp1] at hp2
          injection hp2
        subst hbb
        have hlt := (Tree.inv_childUp hinv b1 hb1L x hxb1).1
        have := ih b1 hlt k m hb1 hb2
        omega

theorem Tree.level_nodup {t : Tree T} (hinv : t.Inv) (hr : t.root = some 0) :
    ∀ k, (t.level 0 k).Nodup := by
  intro k
  induction k with
  | zero =>
    rw [Tree.level]
    exact List.nodup_singleton 0
  | succ k ih =>
    rw [Tree.level, List.nodup_flatMap]
    constructor
    · intro b hb
      exact Tree.inv_nodup hinv b (Tree.level_bounds hinv hr k b hb).2
    · apply List.Pairwise.imp_of_mem ?_ ih
      intro b1 b2 h1 h2 hne x hx1 hx2
      have hb1L := (Tree.level_bounds hinv hr k b1 h1).2
      have hb2L := (Tree.level_bounds hinv hr k b2 h2).2
      have hp1 := Tree.inv_childParent hinv b1 hb1L x hx1
      have hp2 := Tree.inv_childParent hinv b2 hb2L x hx2
      rw [hp1] at hp2
      exact hne (by injection hp2)

theorem Tree.bfs_nodup {t : Tree T} (hinv : t.Inv) (hr : t.root = some 0) :
    t.bfs.Nodup := by
  rw [Tree.bfs_eq_levels hinv hr, List.nodup_flatMap]
  constructor
  · intro k _
    exact Tree.level_nodup hinv hr k
  · apply List.Pairwise.imp ?_ (List.nodup_range t.nodes.length)
    intro k1 k2 hne x hx1 hx2
    exact hne (Tree.level_unique hinv hr x k1 k2 hx1 hx2)

theorem Tree.mem_bfs_iff {t : Tree T} (hinv : t.Inv) (hr : t.root = some 0) :
    ∀ x, x ∈ t.bfs ↔ t.ReachFrom 0 x := by
  intro x
  rw [Tree.bfs_eq_levels hinv hr]
  constructor
  · intro hx
    obtain ⟨k, hk, hxk⟩ := List.mem_flatMap.mp hx
    exact Tree.reach_of_level hxk
  · intro hreach
    obtain ⟨k, hk⟩ := Tree.level_of_reach hreach
    refine List.mem_flatMap.mpr ⟨k, ?_, hk⟩
    rw [List.mem_range]
    have := Tree.level_bounds hinv hr k x hk
    omega

/-- C3: for every tree satisfying the arena invariant, `bfs()` is empty
when there is no root, and otherwise is the level-order sequence: the
concatenation of the levels (the root alone, then the children of each
level's nodes in insertion order grouped by parent), starting with the
root and listing every reachable node exactly once. -/
theorem bfs_level_order_correct {T : Type} (t : Tree T) (hinv : t.Inv) :
    (t.root = none → t.bfs = []) ∧
    (∀ r, t.root = some r →
      t.bfs = (List.range t.nodes.length).flatMap (t.level r) ∧
      t.level r 0 = [r] ∧
      (∀ k, t.level r (k+1) = (t.level r k).flatMap t.childrenD) ∧
      t.bfs.head? = some r ∧ t.bfs.Nodup ∧
      (∀ x, x ∈ t.bfs ↔ t.ReachFrom r x)) := by
  constructor
  · intro h
    rw [Tree.bfs, h]
  · intro r hr
    have hr0 : r = 0 := by
      rcases Tree.inv_rootZero hinv with h0 | ⟨h0, hL⟩
      · rw [h0] at hr; cases hr
      · rw [h0] at hr
        injection hr with h'
        omega
    subst hr0
    exact ⟨Tree.bfs_eq_levels hinv hr, rfl, fun k => rfl,
      Tree.bfs_head hinv hr, Tree.bfs_nodup hinv hr,
      Tree.mem_bfs_iff hinv hr⟩

theorem bfs_level_order_correct_witness :
    exTree.bfs = (List.range exTree.nodes.length).flatMap (exTree.level 0) ∧
      exTree.bfs.Nodup := by
  have h := (bfs_level_order_correct exTree (by decide)).2 0 rfl
  exact ⟨h.1, h.2.2.2.2.1⟩

/-! Rendering -/

theorem strJoin_foldl : ∀ (l : List String) (s : String),
    l.foldl (· ++ ·) s = s ++ String.join l := by
  intro l
  induction l with
  | nil =>
    intro s
    show s = s ++ ""
    rw [String.append_empty]
  | cons a l ih =>
    intro s
    show l.foldl (· ++ ·) (s ++ a) = s ++ String.join (a :: l)
    rw [ih (s ++ a)]
    have h : String.join (a :: l) = a ++ String.join l := by
      show l.foldl (· ++ ·) ("" ++ a) = a ++ String.join l
      rw [show ("" ++ a : String) = a from rfl, ih a]
    rw [h, String.append_assoc]

theorem strJoin_cons (a : String) (l : List String) :
    String.join (a :: l) = a ++ String.join l := by
  show l.foldl (· ++ ·) ("" ++ a) = a ++ String.join l
  rw [show ("" ++ a : String) = a from rfl, strJoin_foldl l a]

theorem strJoin_append (l1 l2 : List String) :
    String.join (l1 ++ l2) = String.join l1 ++ String.join l2 := by
  induction l1 with
  | nil => rfl
  | cons a l1 ih =>
    rw [List.cons_append, strJoin_cons, strJoin_cons, ih, String.append_assoc]

theorem strJoin_flatMap {α β : Type} (l : List α) (g : α → List β)
    (f : β → String) :
    String.join ((l.flatMap g).map f)
      = String.join (l.map (fun a => String.join ((g a).map f))) := by
  induction l with
  | nil => rfl
  | cons a l ih =>
    rw [List.flatMap_cons, List.map_append, strJoin_append, ih,
      List.map_cons, strJoin_cons]

theorem ite_str_empty {α : Sort u} (a b : α) :
    (if ("" : String) = "" then a else b) = a := if_pos rfl

theorem str_empty_append (s : String) : "" ++ s = s := rfl

theorem Tree.lineD_of_slot {t : Tree T} {i : Nat} {n : Node T}
    (hn : t.slot i = some n) (label : T → String) :
    t.lineD label i = label n.data ++ "\n" := by
  unfold Tree.lineD
  rw [hn]

/-- Rendering from an empty indentation string stays at the empty
indentation string forever: every node is printed with no indentation and
no connector, label followed by newline, in pre-order. -/
theorem Tree.fmtRec_empty {t : Tree T} (hinv : t.Inv) (label : T → String) :
    ∀ (fuel i : Nat) (last : Bool), i < t.nodes.length →
      t.nodes.length - i ≤ fuel →
      t.fmtRec label fuel i "" last
        = String.join ((t.preorder i).map (t.lineD label)) := by
  intro fuel
  induction fuel with
  | zero => intro i last hi hf; omega
  | succ fuel ih =>
    intro i last hi hf
    obtain ⟨n, hn⟩ := Option.isSome_iff_exists.mp (Tree.inv_slots hinv i hi)
    have hcs := Tree.childrenD_of_slot hn
    simp only [Tree.fmtRec, hn, ite_str_empty, if_true, str_empty_append]
    rw [Tree.preorder_unfold hinv hi, List.map_cons, strJoin_cons,
      Tree.lineD_of_slot hn label]
    have hstep : (n.children.enum).map
          (fun ic => t.fmtRec label fuel ic.2 "" (ic.1 + 1 == n.children.length))
        = (n.children.enum).map
          (fun ic => String.join ((t.preorder ic.2).map (t.lineD label))) := by
      apply List.map_congr_left
      intro ic hic
      have hmem : ic.2 ∈ n.children := List.snd_mem_of_mem_enum hic
      rw [← hcs] at hmem
      have hb := Tree.inv_childUp hinv i hi ic.2 hmem
      exact ih ic.2 (ic.1 + 1 == n.children.length) hb.2 (by omega)
    rw [hstep]
    have hsnd : (n.children.enum).map
          (fun ic => String.join ((t.preorder ic.2).map (t.lineD label)))
        = n.children.map
          (fun c => String.join ((t.preorder c).map (t.lineD label))) := by
      have h1 : (fun ic : Nat × Nat =>
            String.join ((t.preorder ic.2).map (t.lineD label)))
          = (fun c => String.join ((t.preorder c).map (t.lineD label)))
            ∘ Prod.snd := rfl
      rw [h1, ← List.map_map, List.enum_map_snd]
    rw [hsnd, ← hcs, ← strJoin_flatMap, String.append_assoc]

/-- Every line of the rendering: label then newline (the embedded
`fmt_rec` never emits a connector, see `fmt_tree_renders_flat`). -/
theorem Tree.fmt_tree_eq_join {t : Tree T} (hinv : t.Inv) (label : T → String) :
    t.fmt_tree label = String.join ((t.dfs).map (t.lineD label)) := by
  cases hr : t.root with
  | none =>
    rw [Tree.fmt_tree, hr]
    rw [Tree.dfs, hr]
    rfl
  | some r =>
    have hrL : r < t.nodes.length := (Tree.root_some_zero hinv hr).2
    simp only [Tree.fmt_tree, hr]
    rw [Tree.fmtRec_empty hinv label t.nodes.length r true hrL (by omega),
      Tree.dfs_eq_preorder hinv hr]

/-- C4: for every tree satisfying the arena invariant and every labelling
function, `fmt_tree` renders one line per node, in `dfs()` order, each
line being the node's label followed by a newline; the root's line is just
its label with no connector, and a tree holding only a root renders as
exactly the root's label followed by one newline. -/
theorem fmt_tree_one_line_per_node {T : Type} (t : Tree T)
    (label : T → String) (hinv : t.Inv) :
    t.fmt_tree label = String.join ((t.dfs).map (t.lineD label)) ∧
    (∀ i n, t.slot i = some n → t.lineD label i = label n.data ++ "\n") ∧
    (∀ r v, t.root = some r → t.get r = some v → t.nodes.length = 1 →
      t.fmt_tree label = label v ++ "\n") := by
  refine ⟨Tree.fmt_tree_eq_join hinv label,
    fun i n hn => Tree.lineD_of_slot hn label, ?_⟩
  intro r v hr hv hL
  have hr0 := Tree.root_some_zero hinv hr
  obtain ⟨n, hn⟩ := Option.isSome_iff_exists.mp (Tree.inv_slots hinv r hr0.2)
  have hcs : t.childrenD r = [] := by
    cases hcase : t.childrenD r with
    | nil => rfl
    | cons c cs =>
      exfalso
      have hc : c ∈ t.childrenD r := by rw [hcase]; simp
      have := Tree.inv_childUp hinv r hr0.2 c hc
      omega
  have hpre : t.preorder r = [r] := by
    rw [Tree.preorder_unfold hinv hr0.2, hcs]
    rfl
  rw [Tree.fmt_tree_eq_join hinv label, Tree.dfs_eq_preorder hinv hr, hpre,
    List.map_cons, List.map_nil, strJoin_cons,
    show String.join [] = ("" : String) from rfl, String.append_empty,
    Tree.lineD_of_slot hn label]
  rw [Tree.get, hn] at hv
  have hv' : n.data = v := Option.some.inj hv
  rw [hv']

theorem fmt_tree_one_line_per_node_witness :
    exRoot.fmt_tree (fun s => s) = "root\n" := by
  have h := (fmt_tree_one_line_per_node exRoot (fun s => s) (by decide)).2.2
    0 "root" rfl rfl rfl
  exact h

/-- C1 is refuted by the code: on the specification's six-node concrete
scenario the renderer prints every label flat, with no connectors and no
indentation, because `fmt_rec` detects the root by testing whether the
incoming indentation string is empty and the root is rendered with the
empty string, so every recursive call again receives the empty string and
every connector collapses to the empty string.  The conventional
`tree`-style rendering the specification requires differs from the
output. -/
theorem fmt_tree_renders_flat :
    exTree.fmt_tree (fun s => s) = "root\na\na1\na2\nb\nb1\n" ∧
    exTree.fmt_tree (fun s => s)
      ≠ "root\n├── a\n│   ├── a1\n│   └── a2\n└── b\n    └── b1\n" := by
  constructor
  · decide
  · decide

/-! Mutation contracts -/

/-- A two-node tree: the result of `add_child 0 "a"` on `exRoot`. -/
def exRootA : Tree String :=
  { nodes := [some ⟨"root", none, [1]⟩, some ⟨"a", some 0, []⟩],
    root := some 0 }

/-- The result of writing `"x"` through `get_mut(0)` on `exRoot`. -/
def exRootX : Tree String :=
  { nodes := [some ⟨"x", none, []⟩], root := some 0 }

/-- C5: after a successful `add_child(p, v)` returning handle `h`,
`parent(h)` is `p`, and `children(p)` is the old children list with `h`
appended at the end; `h` was not there before and now occurs exactly
once. -/
theorem add_child_parent_last {T : Type} (t t' : Tree T) (p h : Nat) (v : T)
    (hinv : t.Inv) (hadd : t.add_child p v = some (h, t')) :
    t'.parent h = some (some p) ∧
    t'.children p = some (t.childrenD p ++ [h]) ∧
    h ∉ t.childrenD p ∧
    (t'.childrenD p).count h = 1 := by
  obtain ⟨n, hn, -, -, -⟩ := Tree.add_child_some hadd
  obtain ⟨hc, hlen, hroot, hsc, hsp, hsj⟩ := Tree.add_child_slots hadd
  obtain ⟨-, -, -, hchp, -, -, -, -, -⟩ := Tree.add_child_links hadd
  have hp : p < t.nodes.length := Tree.lt_of_slot_isSome (by rw [hn]; rfl)
  have hnot : h ∉ t.childrenD p := by
    intro hmem
    have := Tree.inv_childUp hinv p hp h hmem
    omega
  refine ⟨?_, ?_, hnot, ?_⟩
  · rw [Tree.parent, hsc]
    rfl
  · rw [Tree.children, hsp n hn, Tree.childrenD_of_slot hn]
    rfl
  · rw [hchp, List.count_append, List.count_eq_zero.mpr hnot]
    simp

theorem add_child_parent_last_witness :
    exRootA.parent 1 = some (some 0) ∧ exRootA.children 0 = some [1] := by
  have h := add_child_parent_last exRoot exRootA 0 1 "a" (by decide) (by decide)
  exact ⟨h.1, h.2.1⟩

theorem Tree.slot_isSome_iff {t : Tree T} {p : Nat} :
    (t.slot p).isSome = true ↔
      (p < t.nodes.length ∧ (t.slot p).isSome = true) :=
  ⟨fun h => ⟨Tree.lt_of_slot_isSome h, h⟩, fun h => h.2⟩

/-- C6: `set_root` faults exactly when a root already exists; `add_child`
faults exactly when the parent handle is out of range or names an unused
slot; in either fault case the call aborts with the arena's slots and root
exactly as they were before the call. -/
theorem faults_iff_and_no_mutation {T : Type} (t : Tree T) (v w : T) (p : Nat) :
    ((t.step (Op.setRoot v)).2 = none ↔ t.root.isSome = true) ∧
    (t.root.isSome = true → t.step (Op.setRoot v) = (t, none)) ∧
    ((t.step (Op.addChild p w)).2 = none
      ↔ ¬(p < t.nodes.length ∧ (t.slot p).isSome = true)) ∧
    (¬(p < t.nodes.length ∧ (t.slot p).isSome = true) →
      t.step (Op.addChild p w) = (t, none)) := by
  refine ⟨?_, ?_, ?_, ?_⟩
  · cases hr : t.root with
    | none => simp [Tree.step, Tree.set_root, hr, Tree.alloc]
    | some r => simp [Tree.step, Tree.set_root, hr]
  · intro hroot
    obtain ⟨r, hr⟩ := Option.isSome_iff_exists.mp hroot
    simp [Tree.step, Tree.set_root, hr]
  · rw [← Tree.slot_isSome_iff]
    by_cases hs : (t.slot p).isSome = true
    · simp [Tree.step, Tree.add_child, hs, Tree.alloc]
    · simp [Tree.step, Tree.add_child, hs]
  · rw [← Tree.slot_isSome_iff]
    intro hcond
    have hs : ¬ (t.slot p).isSome = true := hcond
    simp [Tree.step, Tree.add_child, hs]

theorem faults_iff_and_no_mutation_witness :
    exRoot.step (Op.setRoot "y") = (exRoot, none) ∧
    exRoot.step (Op.addChild 99 "y") = (exRoot, none) := by
  have h1 := (faults_iff_and_no_mutation exRoot "y" "y" 99).2.1 (by decide)
  have h2 := (faults_iff_and_no_mutation exRoot "y" "y" 99).2.2.2 (by decide)
  exact ⟨h1, h2⟩

/-- C7: writing `w` through `get_mut(h)` and then reading `get(h)`
observes `w`; every other node's payload is unchanged, every node's
parent and children (including `h`'s) are unchanged, no handle changes
validity, and the root is unchanged. -/
theorem write_frame {T : Type} (t t' : Tree T) (h : Nat) (w : T)
    (hw : t.write h w = some t') :
    t'.get h = some w ∧
    (∀ j, j ≠ h → t'.get j = t.get j) ∧
    (∀ j, t'.parent j = t.parent j) ∧
    (∀ j, t'.children j = t.children j) ∧
    (∀ j, (t'.slot j).isSome = (t.slot j).isSome) ∧
    t'.root = t.root := by
  obtain ⟨n, hn, -, -⟩ := Tree.write_some hw
  obtain ⟨hroot, hlen, hsi, hsj⟩ := Tree.write_slots hw
  have hsi' := hsi n hn
  refine ⟨?_, ?_, ?_, ?_, ?_, hroot⟩
  · rw [Tree.get, hsi']
    rfl
  · intro j hj
    rw [Tree.get, Tree.get, hsj j hj]
  · intro j
    by_cases hj : j = h
    · subst hj
      rw [Tree.parent, Tree.parent, hsi', hn]
      rfl
    · rw [Tree.parent, Tree.parent, hsj j hj]
  · intro j
    by_cases hj : j = h
    · subst hj
      rw [Tree.children, Tree.children, hsi', hn]
      rfl
    · rw [Tree.children, Tree.children, hsj j hj]
  · intro j
    by_cases hj : j = h
    · subst hj
      rw [hsi', hn]
      rfl
    · rw [hsj j hj]

theorem write_frame_witness :
    exRootX.get 0 = some "x" ∧ exRootX.root = exRoot.root := by
  have h := write_frame exRoot exRootX 0 "x" (by decide)
  exact ⟨h.1, h.2.2.2.2.2⟩

/-- One public call keeps a live handle live, keeps its parent link, only
ever appends to its children, and (when the call is not a payload write to
that very handle) keeps its payload. -/
theorem Tree.step_keeps {T : Type} (u : Tree T) (op : Op T) (h : Nat)
    (hv : (u.slot h).isSome = true) :
    (((u.step op).1).slot h).isSome = true ∧
    ((u.step op).1).parentD h = u.parentD h ∧
    (∃ l, ((u.step op).1).childrenD h = u.childrenD h ++ l) ∧
    ((∀ w, op ≠ Op.writeData h w) → ((u.step op).1).get h = u.get h) := by
  have hhL : h < u.nodes.length := Tree.lt_of_slot_isSome hv
  cases op with
  | setRoot v =>
    cases hsr : u.set_root v with
    | none =>
      simp [Tree.step, hsr]
      exact hv
    | some q =>
      obtain ⟨qi, qt⟩ := q
      obtain ⟨hr, hi, hroot, hlen, hsi, hsj⟩ := Tree.set_root_slots hsr
      have hne : h ≠ qi := by omega
      have hslot := hsj h hne
      simp only [Tree.step, hsr]
      refine ⟨by rw [hslot]; exact hv, ?_, ⟨[], ?_⟩, fun _ => ?_⟩
      · rw [Tree.parentD, Tree.parentD, hslot]
      · rw [List.append_nil, Tree.childrenD, Tree.childrenD, hslot]
      · rw [Tree.get, Tree.get, hslot]
  | addChild p v =>
    cases hac : u.add_child p v with
    | none =>
      simp [Tree.step, hac]
      exact hv
    | some q =>
      obtain ⟨qi, qt⟩ := q
      obtain ⟨n, hn, -, -, -⟩ := Tree.add_child_some hac
      obtain ⟨hc, hlen, hroot, hsc, hsp, hsj⟩ := Tree.add_child_slots hac
      obtain ⟨-, -, -, hchp, -, hchj, -, hpaj, -⟩ := Tree.add_child_links hac
      have hne : h ≠ qi := by omega
      simp only [Tree.step, hac]
      refine ⟨?_, ?_, ?_, fun _ => ?_⟩
      · by_cases hp : h = p
        · subst hp
          rw [hsp n hn]
          rfl
        · rw [hsj h hp hne]
          exact hv
      · exact hpaj h hne
      · by_cases hp : h = p
        · subst hp
          exact ⟨[qi], hchp⟩
        · exact ⟨[], by rw [List.append_nil]; exact hchj h hp hne⟩
      · by_cases hp : h = p
        · subst hp
          rw [Tree.get, Tree.get, hsp n hn, hn]
          rfl
        · rw [Tree.get, Tree.get, hsj h hp hne]
  | writeData i v =>
    cases hwr : u.write i v with
    | none =>
      simp [Tree.step, hwr]
      exact hv
    | some t' =>
      obtain ⟨m, hm, -, -⟩ := Tree.write_some hwr
      obtain ⟨hroot, hlen, hsi, hsj⟩ := Tree.write_slots hwr
      obtain ⟨-, -, hpa, hch, hsm⟩ := Tree.write_links hwr
      simp only [Tree.step, hwr]
      refine ⟨by rw [hsm h]; exact hv, hpa h, ⟨[], by rw [List.append_nil, hch h]⟩,
        fun hnw => ?_⟩
      have hih : i ≠ h := by
        intro hcontra
        subst hcontra
        exact hnw v rfl
      rw [Tree.get, Tree.get, hsj h (fun hx => hih hx.symm)]

/-- C8: a handle `h` naming a live slot remains valid across any later
sequence of public mutating calls: it still names a live slot, its parent
link is unchanged, its children list has only been appended to, its
payload is unchanged unless some call wrote through `get_mut(h)` itself,
and no call in any state where `h` is live ever returns `h` as a freshly
allocated handle. -/
theorem handle_stability {T : Type} (t : Tree T) (h : Nat) (ops : List (Op T))
    (hv : (t.slot h).isSome = true) :
    ((t.runOps ops).slot h).isSome = true ∧
    (t.runOps ops).parentD h = t.parentD h ∧
    (∃ l, (t.runOps ops).childrenD h = t.childrenD h ++ l) ∧
    ((∀ w, Op.writeData h w ∉ ops) → (t.runOps ops).get h = t.get h) ∧
    (∀ (u : Tree T) (op : Op T) (i : Nat), (u.slot h).isSome = true →
      (u.step op).2 = some i → i ≠ h) := by
  have hfresh : ∀ (u : Tree T) (op : Op T) (i : Nat), (u.slot h).isSome = true →
      (u.step op).2 = some i → i ≠ h := by
    intro u op i hvu hstep
    have huL : h < u.nodes.length := Tree.lt_of_slot_isSome hvu
    cases op with
    | setRoot v =>
      cases hsr : u.set_root v with
      | none => rw [Tree.step, hsr] at hstep; cases hstep
      | some q =>
        obtain ⟨qi, qt⟩ := q
        obtain ⟨-, hi, -, -, -, -⟩ := Tree.set_root_slots hsr
        rw [Tree.step, hsr] at hstep
        have : qi = i := by injection hstep
        omega
    | addChild p v =>
      cases hac : u.add_child p v with
      | none => rw [Tree.step, hac] at hstep; cases hstep
      | some q =>
        obtain ⟨qi, qt⟩ := q
        obtain ⟨hc, -, -, -, -, -⟩ := Tree.add_child_slots hac
        rw [Tree.step, hac] at hstep
        have : qi = i := by injection hstep
        omega
    | writeData j v =>
      cases hwr : u.write j v with
      | none => rw [Tree.step, hwr] at hstep; cases hstep
      | some t' => rw [Tree.step, hwr] at hstep; cases hstep
  have hmain : ∀ (ops : List (Op T)) (t : Tree T),
      (t.slot h).isSome = true →
      ((t.runOps ops).slot h).isSome = true ∧
      (t.runOps ops).parentD h = t.parentD h ∧
      (∃ l, (t.runOps ops).childrenD h = t.childrenD h ++ l) ∧
      ((∀ w, Op.writeData h w ∉ ops) → (t.runOps ops).get h = t.get h) := by
    intro ops
    induction ops with
    | nil =>
      intro t hvt
      exact ⟨hvt, rfl, ⟨[], by rw [List.append_nil]; rfl⟩, fun _ => rfl⟩
    | cons op ops ih =>
      intro t hvt
      have hrun : t.runOps (op :: ops) = ((t.step op).1).runOps ops := rfl
      obtain ⟨hv1, hp1, ⟨l1, hc1⟩, hg1⟩ := Tree.step_keeps t op h hvt
      obtain ⟨hv2, hp2, ⟨l2, hc2⟩, hg2⟩ := ih (t.step op).1 hv1
      rw [hrun]
      refine ⟨hv2, by rw [hp2, hp1], ⟨l1 ++ l2, ?_⟩, fun hnw => ?_⟩
      · rw [hc2, hc1, List.append_assoc]
      · have hnw1 : ∀ w, Op.writeData h w ∉ ops := by
          intro w hmem
          exact hnw w (by simp [hmem])
        have hnw2 : ∀ w, op ≠ Op.writeData h w := by
          intro w hcontra
          exact hnw w (by simp [hcontra])
        rw [hg2 hnw1, hg1 hnw2]
  obtain ⟨h1, h2, h3, h4⟩ := hmain ops t hv
  exact ⟨h1, h2, h3, h4, hfresh⟩

theorem handle_stability_witness :
    ((exRoot.runOps [Op.addChild 0 "a"]).slot 0).isSome = true ∧
    (exRoot.runOps [Op.addChild 0 "a"]).get 0 = exRoot.get 0 := by
  have h := handle_stability exRoot 0 [Op.addChild 0 "a"] (by decide)
  refine ⟨h.1, h.2.2.2.1 ?_⟩
  intro w hmem
  simp at hmem

theorem Tree.reached_step {T : Type} {t : Tree T} (h : Reached t)
    (op : Op T) : Reached (t.step op).1 := by
  cases op with
  | setRoot v =>
    cases hsr : t.set_root v with
    | none => simpa [Tree.step, hsr] using h
    | some q =>
      simp only [Tree.step, hsr]
      exact Reached.root h (by rw [hsr])
  | addChild p v =>
    cases hac : t.add_child p v with
    | none => simpa [Tree.step, hac] using h
    | some q =>
      simp only [Tree.step, hac]
      exact Reached.child h (by rw [hac])
  | writeData i v =>
    cases hwr : t.write i v with
    | none => simpa [Tree.step, hwr] using h
    | some t' =>
      simp only [Tree.step, hwr]
      exact Reached.wr h hwr

theorem Tree.reached_runOps {T : Type} {t : Tree T} (h : Reached t)
    (ops : List (Op T)) : Reached (t.runOps ops) := by
  induction ops generalizing t with
  | nil => exact h
  | cons op ops ih => exact ih (Tree.reached_step h op)

/-- The operation sequence of the specification's concrete scenario. -/
def exOps : List (Op String) :=
  [Op.setRoot "root", Op.addChild 0 "a", Op.addChild 1 "a1",
   Op.addChild 1 "a2", Op.addChild 0 "b", Op.addChild 4 "b1"]

theorem exTree_reached : Reached exTree := by
  have h := Tree.reached_runOps Reached.base exOps
  rw [show Tree.new.runOps exOps = exTree from by decide] at h
  exact h

/-- C9: in every tree reachable from `new()` through the public
operations, every slot of the arena is occupied, so a handle is valid
exactly when its index is below the number of slots and the
unused-slot fault branch of the internal lookups cannot fire for an
in-range index. -/
theorem reached_all_slots_live {T : Type} (t : Tree T) (hr : Reached t) :
    ∀ i, (t.slot i).isSome = true ↔ i < t.nodes.length := by
  have hinv := Tree.reached_inv hr
  intro i
  exact ⟨fun h => Tree.lt_of_slot_isSome h, fun h => Tree.inv_slots hinv i h⟩

theorem reached_all_slots_live_witness :
    ((exTree.slot 3).isSome = true ↔ 3 < exTree.nodes.length) ∧
    ((exTree.slot 9).isSome = true ↔ 9 < exTree.nodes.length) := by
  have h := reached_all_slots_live exTree exTree_reached
  exact ⟨h 3, h 9⟩

/-- C10: handles are assigned sequentially in allocation order: every
allocating call on a reachable tree returns the current slot count and
grows the arena by exactly one slot, a payload write never changes the
slot count, and in a non-empty reachable tree the root is handle `0` and
is the first element of both `dfs()` and `bfs()`. -/
theorem sequential_allocation {T : Type} (t : Tree T) (hr : Reached t) :
    (∀ v i t', t.set_root v = some (i, t') →
      i = t.nodes.length ∧ t'.nodes.length = t.nodes.length + 1) ∧
    (∀ p v i t', t.add_child p v = some (i, t') →
      i = t.nodes.length ∧ t'.nodes.length = t.nodes.length + 1) ∧
    (∀ j v t', t.write j v = some t' → t'.nodes.length = t.nodes.length) ∧
    (∀ r, t.root = some r →
      r = 0 ∧ t.dfs.head? = some 0 ∧ t.bfs.head? = some 0) := by
  have hinv := Tree.reached_inv hr
  refine ⟨?_, ?_, ?_, ?_⟩
  · intro v i t' hs
    obtain ⟨-, hi, -, hlen, -, -⟩ := Tree.set_root_slots hs
    exact ⟨hi, hlen⟩
  · intro p v i t' hs
    obtain ⟨hc, hlen, -, -, -, -⟩ := Tree.add_child_slots hs
    exact ⟨hc, hlen⟩
  · intro j v t' hs
    exact (Tree.write_links hs).2.1
  · intro r hrr
    have hr0 := Tree.root_some_zero hinv hrr
    have hrz : t.root = some 0 := by rw [hrr, hr0.1]
    refine ⟨hr0.1, ?_, Tree.bfs_head hinv hrz⟩
    rw [Tree.dfs_eq_preorder hinv hrz, Tree.preorder_unfold hinv (by omega)]
    rfl

theorem sequential_allocation_witness :
    exTree.root = some 0 ∧ exTree.dfs.head? = some 0 ∧
      exTree.bfs.head? = some 0 := by
  have h := (sequential_allocation exTree exTree_reached).2.2.2 0 rfl
  exact ⟨rfl, h.2.1, h.2.2⟩

example : exTree.dfs = [0, 1, 2, 3, 4, 5] := by decide
example : exTree.bfs = [0, 1, 4, 2, 3, 5] := by decide
example : exTree.Inv := by decide
example : exRoot.Inv := by decide
example : Tree.new.runOps
    [Op.setRoot "root", Op.addChild 0 "a", Op.addChild 1 "a1",
     Op.addChild 1 "a2", Op.addChild 0 "b", Op.addChild 4 "b1"] = exTree := by
  decide

end Dir
